import Mathlib

/-!
Shallow embedding of `vital.py`: a script that groups patient demographic
records by a normalized name key and prints the groups twice (insertion
order, then each group sorted by descending numeric patient-ID suffix).

Python strings are modelled as `List Char` (ASCII case mapping, as the
program's inputs are ASCII).  Python exceptions are modelled with
`Except PyError`.  Python `dict` (insertion ordered) is modelled as an
association list.
-/

namespace Vital

open List

/-- Python strings, modelled as character lists. -/
abbrev PyStr := List Char

/-- One input row (`csv` row): a list of string fields. -/
abbrev Record := List PyStr

/-- The insertion-ordered dictionary built by `createDictionary`. -/
abbrev GroupTable := List (PyStr × List Record)

/-- The runtime errors the script can raise:
`malformedName` for the `Exception` raised by `createKey`,
`valueError` for `int()` failing in `extractNumber`,
`indexError` for an out-of-range list subscript. -/
inductive PyError where
  | malformedName
  | valueError
  | indexError
deriving DecidableEq

/-- `str.lower()` on one character (ASCII case mapping). -/
def lowerChar (c : Char) : Char :=
  if 65 ≤ c.toNat ∧ c.toNat ≤ 90 then Char.ofNat (c.toNat + 32) else c

/-- `completeName.lower()` : lowercase every character. -/
def pyLower (s : PyStr) : PyStr := s.map lowerChar

/-- `s.split("^")` : Python split on the one-character separator `'^'`.
`splitCaret [] = [[]]`, matching Python where `"".split("^") == [""]`. -/
def splitCaret : PyStr → List PyStr
  | [] => [[]]
  | c :: cs =>
    match splitCaret cs with
    | [] => [[]]
    | p :: ps => if c = '^' then [] :: p :: ps else (c :: p) :: ps

/-- `createKey` from `vital.py`: lowercase the name, split on `"^"`;
two parts: the whole lowered string; three parts: `name[0] + "^" + name[1]`;
otherwise raise (`malformedName`). -/
def createKey (completeName : PyStr) : Except PyError PyStr :=
  let lowered := pyLower completeName
  match splitCaret lowered with
  | [_, _] => .ok lowered
  | [a, b, _] => .ok (a ++ '^' :: b)
  | _ => .error .malformedName

/-- `xs[i]` on a Python list with a constant non-negative index:
`IndexError` when out of range. -/
def pyGet (xs : List α) (i : Nat) : Except PyError α :=
  match xs.get? i with
  | some x => .ok x
  | none => .error .indexError

/-- The whitespace characters stripped by Python `int()` (ASCII part). -/
def pyWs (c : Char) : Bool := c = ' ' ∨ c = '\t' ∨ c = '\n' ∨ c = '\r' ∨ c = '\x0b' ∨ c = '\x0c'

/-- `s.strip()` restricted to ASCII whitespace. -/
def stripWs (s : PyStr) : PyStr :=
  ((s.dropWhile pyWs).reverse.dropWhile pyWs).reverse

/-- ASCII decimal digit test. -/
def isDigitChar (c : Char) : Bool := 48 ≤ c.toNat ∧ c.toNat ≤ 57

/-- Numeric value of an ASCII digit. -/
def digitVal (c : Char) : Nat := c.toNat - 48

/-- Continuation of Python `int()` digit parsing after at least one digit:
more digits, a single `'_'` allowed only between two digits.  The flag
records that the previous character was an underscore (which must be
followed by a digit and must not end the string). -/
def digitsAux (acc : Nat) (afterUnd : Bool) : List Char → Option Nat
  | [] => if afterUnd then none else some acc
  | c :: cs =>
    if isDigitChar c then digitsAux (acc * 10 + digitVal c) false cs
    else if c = '_' && !afterUnd then digitsAux acc true cs
    else none

/-- The digit part of Python `int()`: one or more ASCII digits, with single
underscores allowed between digits (Python 3.6+ literal grammar). -/
def pyIntDigits : List Char → Option Nat
  | [] => none
  | c :: cs => if isDigitChar c then digitsAux (digitVal c) false cs else none

/-- Python `int(s)` on an ASCII string: strip surrounding whitespace, accept
an optional `'+'` or `'-'` sign, then digits with optional single
underscores between them; anything else raises `ValueError`. -/
def pyInt (s : PyStr) : Option Int :=
  match stripWs s with
  | [] => none
  | c :: rest =>
    if c = '+' then (pyIntDigits rest).map Int.ofNat
    else if c = '-' then (pyIntDigits rest).map (fun n => -(Int.ofNat n))
    else (pyIntDigits (c :: rest)).map Int.ofNat

/-- `extractNumber` from `vital.py`: `int(str[3:])`. -/
def extractNumber (s : PyStr) : Except PyError Int :=
  match pyInt (s.drop 3) with
  | some n => .ok n
  | none => .error .valueError

/-- `namesDictionary.setdefault(key, []); namesDictionary[key].append(item)`:
append `r` to the group of key `k`, creating the group at the end of the
insertion-ordered dictionary when the key is new. -/
def dictAppend (d : GroupTable) (k : PyStr) (r : Record) : GroupTable :=
  match d with
  | [] => [(k, [r])]
  | (k2, v) :: rest => if k2 = k then (k2, v ++ [r]) :: rest else (k2, v) :: dictAppend rest k r

/-- The loop body of `createDictionary`, folded over the remaining rows:
for each row, `createKey(item[1])` is computed (an out-of-range subscript
or malformed name aborts), and the row is appended to its key's group. -/
def createDictionaryFrom (d : GroupTable) : List Record → Except PyError GroupTable
  | [] => .ok d
  | item :: rest =>
    match pyGet item 1 with
    | .error e => .error e
    | .ok name =>
      match createKey name with
      | .error e => .error e
      | .ok key => createDictionaryFrom (dictAppend d key item) rest

/-- `createDictionary` from `vital.py`: group the rows by `createKey(item[1])`
into an insertion-ordered dictionary. -/
def createDictionary (data : List Record) : Except PyError GroupTable :=
  createDictionaryFrom [] data

/-- `','.join(map(str, item))` : the fields of one row joined by commas. -/
def pyJoinComma (r : Record) : PyStr := List.intercalate [','] r

/-- The decimal rendering of the group counter followed by `':'`,
as printed by `'{0}:'.format(counter)`. -/
def counterLine (i : Nat) : PyStr := Nat.toDigits 10 i ++ [':']

/-- `printOutput` from `vital.py`, modelled as the list of lines it prints:
for each group, in order, its zero-based counter line and then each of its
records joined by commas. -/
def printOutput (d : GroupTable) : List PyStr :=
  (d.enum.map (fun p => counterLine p.1 :: p.2.2.map pyJoinComma)).flatten

/-- The sort key computed by `key=lambda arr: extractNumber(arr[0])` on one
record, paired with the record (decorate step of Python `list.sort`). -/
def decorateRecord (r : Record) : Except PyError (Int × Record) :=
  match pyGet r 0 with
  | .error e => .error e
  | .ok pid =>
    match extractNumber pid with
    | .error e => .error e
    | .ok n => .ok (n, r)

/-- The ordering used by `v.sort(key=..., reverse=True)`: an element comes
before another when its numeric key is at least the other's. -/
def pidOrder (a b : Int × Record) : Prop := b.1 ≤ a.1

instance : DecidableRel pidOrder := fun a b => inferInstanceAs (Decidable (b.1 ≤ a.1))

instance : IsTotal (Int × Record) pidOrder := ⟨fun a b => le_total b.1 a.1⟩

instance : IsTrans (Int × Record) pidOrder := ⟨fun _ _ _ h1 h2 => le_trans h2 h1⟩

/-- Compute the sort key of every record of a group, in order, stopping at
the first failure (Python `list.sort` computes all keys before sorting). -/
def mapMDecorate : List Record → Except PyError (List (Int × Record))
  | [] => .ok []
  | r :: rs =>
    match decorateRecord r with
    | .error e => .error e
    | .ok p =>
      match mapMDecorate rs with
      | .error e => .error e
      | .ok ps => .ok (p :: ps)

/-- `v.sort(key=lambda arr: extractNumber(arr[0]), reverse=True)` on one
group: a stable sort by descending numeric patient-ID suffix.  Python's
sort is stable, and a stable sort is unique, so it is modelled with
`List.insertionSort`, which is stable. -/
def sortGroup (v : List Record) : Except PyError (List Record) :=
  match mapMDecorate v with
  | .error e => .error e
  | .ok keyed => .ok ((List.insertionSort pidOrder keyed).map Prod.snd)

/-- `sortDictbyPidDesc` from `vital.py`: sort every group in place; key
order is unchanged. -/
def sortDictbyPidDesc : GroupTable → Except PyError GroupTable
  | [] => .ok []
  | (k, v) :: rest =>
    match sortGroup v with
    | .error e => .error e
    | .ok v2 =>
      match sortDictbyPidDesc rest with
      | .error e => .error e
      | .ok rest2 => .ok ((k, v2) :: rest2)

/-- The literal separator line printed between the two reports. -/
def markerLine : PyStr := ("Different version, sorted by PID number").data

/-- The body of `main` after reading the input rows, modelled as the list
of lines printed before the run ends, paired with the error that aborted
it (`none` on success): build the dictionary (no output on failure), print
the first report, print the marker line, sort (aborting after the marker
when an ID is malformed), print the second report. -/
def runMain (data : List Record) : List PyStr × Option PyError :=
  match createDictionary data with
  | .error e => ([], some e)
  | .ok d =>
    match sortDictbyPidDesc d with
    | .error e => (printOutput d ++ [markerLine], some e)
    | .ok d2 => (printOutput d ++ [markerLine] ++ printOutput d2, none)

/-- The key of a record as `createDictionary` computes it: `createKey(item[1])`. -/
def recordKey (r : Record) : Except PyError PyStr :=
  match pyGet r 1 with
  | .error e => .error e
  | .ok name => createKey name

/-- Whether an `Except` computation succeeded. -/
def isOkB : Except PyError α → Bool
  | .ok _ => true
  | .error _ => false

/-- The keys of the rows whose key computation succeeds, in input order. -/
def keysOf (data : List Record) : List PyStr :=
  data.filterMap (fun r => (recordKey r).toOption)

/-- First occurrence of each key, in the order first encountered. -/
def dedupFirst : List PyStr → List PyStr
  | [] => []
  | k :: ks => k :: (dedupFirst ks).filter (fun k2 => !(k2 = k : Bool))

/-- Whether a record's key computation succeeds with exactly `k`. -/
def hasKey (k : PyStr) (r : Record) : Bool :=
  match recordKey r with
  | .ok k2 => k2 = k
  | .error _ => false

/-- The group of key `k` in a table (first matching entry, `[]` if absent). -/
def groupOf (d : GroupTable) (k : PyStr) : List Record :=
  match d with
  | [] => []
  | (k2, v) :: rest => if k2 = k then v else groupOf rest k

/-- The numeric patient-ID suffix of a record, as the sorter computes it
(`0` when the computation would raise; only used under the hypothesis that
it succeeds). -/
def pidNum (r : Record) : Int :=
  match decorateRecord r with
  | .ok p => p.1
  | .error _ => 0

/-- Records whose numeric patient-ID suffix is exactly `n`. -/
def pidIs (n : Int) (r : Record) : Bool := pidNum r = n

/-- Recognizer for the continuation of the digit part of a Python integer
literal: more digits, a single `'_'` allowed only between two digits.
Mirrors `digitsAux` without computing the value. -/
def digitsTail (afterUnd : Bool) : List Char → Bool
  | [] => !afterUnd
  | c :: cs =>
    if isDigitChar c then digitsTail false cs
    else if c = '_' && !afterUnd then digitsTail true cs
    else false

/-- Recognizer for the digit part of a Python integer literal: one or more
digits with single underscores allowed between digits. -/
def digitsOk : List Char → Bool
  | [] => false
  | c :: cs => isDigitChar c && digitsTail false cs

/-- Recognizer for a full Python integer literal as accepted by `int()`
on ASCII input: surrounding whitespace, an optional sign, then the digit
part. -/
def isPyIntLiteral (s : PyStr) : Bool :=
  match stripWs s with
  | [] => false
  | c :: rest =>
    if c = '+' ∨ c = '-' then digitsOk rest else digitsOk (c :: rest)

/-- The numeric value of a plain (unsigned, underscore-free) digit string. -/
def digitsToNat (ds : List Char) : Nat :=
  ds.foldl (fun a c => a * 10 + digitVal c) 0

/-- The keys of a table, in order. -/
def tableKeys (d : GroupTable) : List PyStr := d.map Prod.fst

/-- The keys of `ks` not yet in `seen`, each kept at its first occurrence
(generalization of `dedupFirst` used to state the grouping invariant). -/
def newKeys (seen : List PyStr) : List PyStr → List PyStr
  | [] => []
  | k :: ks => if k ∈ seen then newKeys seen ks else k :: newKeys (seen ++ [k]) ks

/-- First row of the worked example in the source's docstring. -/
def exRow1 : Record := [("PID1").data, ("POND^AMY").data, ("F").data, ("19890224").data]

/-- Second row of the worked example. -/
def exRow2 : Record := [("PID2").data, ("WILLIAMS^RORY").data, ("M").data, ("19881102").data]

/-- Third row of the worked example. -/
def exRow3 : Record := [("PID3").data, ("POND^AMY").data, ("F").data, ("19890224").data]

/-- Fourth row of the worked example. -/
def exRow4 : Record := [("PID4").data, ("POND^AMY").data, ("F").data, ("20010911").data]

/-- The worked example input. -/
def exData : List Record := [exRow1, exRow2, exRow3, exRow4]

/-- A row whose name is well formed but whose patient ID has a non-numeric
suffix, so that only the sorted-report pass fails. -/
def badIdRow : Record := [("PIDX").data, ("POND^AMY").data, ("F").data, ("19890224").data]

/-- A row with six fields instead of four. -/
def wideRow : Record :=
  [("PID9").data, ("A^B").data, ("x").data, ("y").data, ("z").data, ("w").data]

/-- A row with a single field (no name field at index 1). -/
def shortRow : Record := [("PID9").data]

/-! ### Lemmas about lowercasing and splitting -/

theorem toNat_ofNat_of_lt {n : Nat} (h : n < 55296) : (Char.ofNat n).toNat = n := by
  have hv : n.isValidChar := Or.inl h
  simp [Char.ofNat, hv, Char.ofNatAux, Char.toNat, UInt32.toNat, BitVec.toNat_ofNatLt]

theorem lowerChar_toNat {c : Char} (h1 : 65 ≤ c.toNat) (h2 : c.toNat ≤ 90) :
    (lowerChar c).toNat = c.toNat + 32 := by
  rw [lowerChar, if_pos ⟨h1, h2⟩]
  exact toNat_ofNat_of_lt (by omega)

theorem lowerChar_of_not_upper {c : Char} (h : ¬(65 ≤ c.toNat ∧ c.toNat ≤ 90)) :
    lowerChar c = c := by
  rw [lowerChar, if_neg h]

theorem lowerChar_idem (c : Char) : lowerChar (lowerChar c) = lowerChar c := by
  by_cases h : 65 ≤ c.toNat ∧ c.toNat ≤ 90
  · have ht : (lowerChar c).toNat = c.toNat + 32 := lowerChar_toNat h.1 h.2
    exact lowerChar_of_not_upper (by omega)
  · rw [lowerChar_of_not_upper h, lowerChar_of_not_upper h]

theorem lowerChar_ne_caret {c : Char} (hc : c ≠ '^') : lowerChar c ≠ '^' := by
  intro h
  by_cases hu : 65 ≤ c.toNat ∧ c.toNat ≤ 90
  · have ht : (lowerChar c).toNat = c.toNat + 32 := lowerChar_toNat hu.1 hu.2
    rw [h] at ht
    have h94 : ('^').toNat = 94 := by decide
    omega
  · exact hc ((lowerChar_of_not_upper hu) ▸ h)

theorem pyLower_idem (s : PyStr) : pyLower (pyLower s) = pyLower s := by
  simp [pyLower, List.map_map, Function.comp_def, lowerChar_idem]

theorem splitCaret_ne_nil (s : PyStr) : splitCaret s ≠ [] := by
  cases s with
  | nil => simp [splitCaret]
  | cons c cs =>
    rw [splitCaret]
    cases splitCaret cs with
    | nil => simp
    | cons p ps =>
      by_cases h : c = '^' <;> simp [h]

theorem splitCaret_map_lower (s : PyStr) :
    splitCaret (pyLower s) = (splitCaret s).map pyLower := by
  induction s with
  | nil => simp [pyLower, splitCaret]
  | cons c cs ih =>
    have hne := splitCaret_ne_nil cs
    rcases hsp : splitCaret cs with _ | ⟨p, ps⟩
    · exact absurd hsp hne
    · show splitCaret (lowerChar c :: pyLower cs) = _
      rw [splitCaret, ih, hsp]
      by_cases hc : c = '^'
      · subst hc
        rw [splitCaret, hsp]
        have hc2 : lowerChar '^' = '^' := by decide
        simp [pyLower, hc2]
      · have hl := lowerChar_ne_caret hc
        rw [splitCaret, hsp]
        simp only [List.map_cons, if_neg hc, if_neg hl, List.map_cons]
        rfl

/-- C1: for every input string, `createKey` lowercases the string and splits
it on `'^'`; with exactly 2 parts it returns the whole lowercased string,
with exactly 3 parts it returns `parts[0] + "^" + parts[1]` (the middle part
discarded, whatever it is), and for any other part count it fails with the
malformed-name error; it fails in exactly those cases and with no other
error.  (The first conjunct records that lowercasing first and splitting
commute with splitting the raw string.) -/
theorem createKey_full_contract (s : PyStr) :
    splitCaret (pyLower s) = (splitCaret s).map pyLower ∧
    (∀ a b, splitCaret (pyLower s) = [a, b] → createKey s = .ok (pyLower s)) ∧
    (∀ a b c, splitCaret (pyLower s) = [a, b, c] → createKey s = .ok (a ++ '^' :: b)) ∧
    ((∃ e, createKey s = .error e) ↔
      ((splitCaret (pyLower s)).length ≠ 2 ∧ (splitCaret (pyLower s)).length ≠ 3)) ∧
    (∀ e, createKey s = .error e → e = PyError.malformedName) := by
  refine ⟨splitCaret_map_lower s, ?_⟩
  rcases hsp : splitCaret (pyLower s) with _ | ⟨a, _ | ⟨b, _ | ⟨c, _ | ⟨d, tl⟩⟩⟩⟩
  · exact absurd hsp (splitCaret_ne_nil _)
  all_goals simp [createKey, hsp]

/-- Witness for C1 at concrete inputs: a 2-part name, a 3-part name. -/
theorem createKey_full_contract_witness :
    createKey (("POND^AMY").data) = .ok (pyLower (("POND^AMY").data)) ∧
    createKey (("A^B^MID").data) = .ok (['a'] ++ '^' :: ['b']) :=
  ⟨(createKey_full_contract (("POND^AMY").data)).2.1 (("pond").data) (("amy").data)
      (by decide),
   (createKey_full_contract (("A^B^MID").data)).2.2.1 ['a'] ['b'] (("mid").data)
      (by decide)⟩

/-- C7: `createKey` is case-insensitive: applying it to the lowercased
string yields the same result as applying it to the string itself, so any
two casing variants of a name yield identical keys. -/
theorem createKey_case_insensitive (s : PyStr) :
    createKey (pyLower s) = createKey s := by
  simp only [createKey, pyLower_idem]

/-! ### Lemmas about integer parsing -/

theorem digitsAux_cons (acc : Nat) (b : Bool) (c : Char) (cs : List Char) :
    digitsAux acc b (c :: cs) =
      if isDigitChar c then digitsAux (acc * 10 + digitVal c) false cs
      else if c = '_' && !b then digitsAux acc true cs
      else none := rfl

theorem digitsTail_cons (b : Bool) (c : Char) (cs : List Char) :
    digitsTail b (c :: cs) =
      if isDigitChar c then digitsTail false cs
      else if c = '_' && !b then digitsTail true cs
      else false := rfl

theorem digitsAux_isSome : ∀ (cs : List Char) (acc : Nat) (b : Bool),
    (digitsAux acc b cs).isSome = digitsTail b cs
  | [], _, b => by cases b <;> rfl
  | c :: cs, acc, b => by
    rw [digitsAux_cons, digitsTail_cons]
    by_cases hd : isDigitChar c
    · rw [if_pos hd, if_pos hd]
      exact digitsAux_isSome cs _ _
    · rw [if_neg hd, if_neg hd]
      by_cases hu : (c = '_' && !b : Bool)
      · rw [if_pos hu, if_pos hu]
        exact digitsAux_isSome cs _ _
      · rw [if_neg hu, if_neg hu]
        rfl

theorem pyIntDigits_isSome (s : List Char) : (pyIntDigits s).isSome = digitsOk s := by
  cases s with
  | nil => rfl
  | cons c cs =>
    rw [pyIntDigits, digitsOk]
    by_cases hd : isDigitChar c
    · simp only [if_pos hd, hd, Bool.true_and]
      exact digitsAux_isSome cs _ _
    · simp [if_neg hd, hd]

theorem isSome_map (f : Nat → Int) (o : Option Nat) : (o.map f).isSome = o.isSome := by
  cases o <;> rfl

theorem pyInt_isSome (s : PyStr) : (pyInt s).isSome = isPyIntLiteral s := by
  rcases h : stripWs s with _ | ⟨c, rest⟩
  · simp only [pyInt, isPyIntLiteral, h, Option.isSome_none]
  · by_cases hp : c = '+'
    · simp only [pyInt, isPyIntLiteral, h, if_pos hp, if_pos (Or.inl hp)]
      rw [isSome_map, pyIntDigits_isSome]
    · by_cases hm : c = '-'
      · simp only [pyInt, isPyIntLiteral, h, if_neg hp, if_pos hm, if_pos (Or.inr hm)]
        rw [isSome_map, pyIntDigits_isSome]
      · have hor : ¬(c = '+' ∨ c = '-') := by
          rintro (h1 | h1)
          · exact hp h1
          · exact hm h1
        simp only [pyInt, isPyIntLiteral, h, if_neg hp, if_neg hm, if_neg hor]
        rw [isSome_map, pyIntDigits_isSome]

theorem pyWs_of_digit {c : Char} (h : isDigitChar c = true) : pyWs c = false := by
  by_contra hw
  rw [Bool.not_eq_false] at hw
  simp only [pyWs, decide_eq_true_eq] at hw
  rcases hw with h1 | h1 | h1 | h1 | h1 | h1 <;>
    rw [h1] at h <;> exact absurd h (by decide)

theorem dropWhile_eq_self_of_all {p : Char → Bool} {l : List Char}
    (h : ∀ c ∈ l, p c = false) : l.dropWhile p = l := by
  cases l with
  | nil => rfl
  | cons c cs => simp [List.dropWhile_cons, h c (List.mem_cons_self ..)]

theorem stripWs_all_digits (ds : List Char) (h : ∀ c ∈ ds, isDigitChar c = true) :
    stripWs ds = ds := by
  have h1 : ds.dropWhile pyWs = ds :=
    dropWhile_eq_self_of_all (fun c hc => pyWs_of_digit (h c hc))
  have h2 : ds.reverse.dropWhile pyWs = ds.reverse :=
    dropWhile_eq_self_of_all (fun c hc => pyWs_of_digit (h c (List.mem_reverse.mp hc)))
  rw [stripWs, h1, h2, List.reverse_reverse]

theorem digitsAux_all_digits : ∀ (cs : List Char) (acc : Nat),
    (∀ c ∈ cs, isDigitChar c = true) →
    digitsAux acc false cs = some (cs.foldl (fun a c => a * 10 + digitVal c) acc)
  | [], _, _ => rfl
  | c :: cs, acc, h => by
    rw [digitsAux_cons, if_pos (h c (List.mem_cons_self ..)), List.foldl_cons]
    exact digitsAux_all_digits cs _ (fun c2 hc2 => h c2 (List.mem_cons_of_mem c hc2))

theorem digit_ne_plus {c : Char} (h : isDigitChar c = true) : ¬(c = '+') := by
  intro he
  rw [he] at h
  exact absurd h (by decide)

theorem digit_ne_minus {c : Char} (h : isDigitChar c = true) : ¬(c = '-') := by
  intro he
  rw [he] at h
  exact absurd h (by decide)

/-- C2 counterexample: `extractNumber` on `"PID-5"` succeeds and returns the
negative number `-5`, although the remainder after the 3-character prefix,
`"-5"`, is not a valid non-negative integer: Python `int()` accepts a sign,
so the function neither parses the remainder as unsigned nor fails exactly
when the remainder is not a non-negative integer. -/
theorem extractNumber_accepts_signed :
    extractNumber (("PID-5").data) = .ok (-5) ∧ ¬(0 ≤ (-5 : Int)) :=
  ⟨rfl, by decide⟩

/-- C2 (amended): `extractNumber` strips the first 3 characters and parses
the remainder with Python `int()` semantics: it succeeds exactly when the
remainder, after discarding surrounding whitespace, is an optionally signed
digit string (single underscores allowed between digits) — so the result
can be negative; in particular, on a remainder made of plain digits it
returns that non-negative number.  It fails with the value error exactly
when the remainder is not of that shape, and the failure propagates. -/
theorem extractNumber_amended (s : PyStr) :
    ((∃ n, extractNumber s = .ok n) ↔ isPyIntLiteral (s.drop 3) = true) ∧
    (∀ ds, ds ≠ [] → (∀ c ∈ ds, isDigitChar c = true) → s.drop 3 = ds →
      extractNumber s = .ok (Int.ofNat (digitsToNat ds))) := by
  constructor
  · rw [← pyInt_isSome]
    rcases h : pyInt (s.drop 3) with _ | n <;> simp [extractNumber, h]
  · rintro ds hne hdig hdrop
    rcases ds with _ | ⟨c, cs⟩
    · exact absurd rfl hne
    · have hw : stripWs (c :: cs) = c :: cs := stripWs_all_digits _ hdig
      have hd : isDigitChar c = true := hdig c (List.mem_cons_self ..)
      have htl : ∀ c2 ∈ cs, isDigitChar c2 = true :=
        fun c2 hc2 => hdig c2 (List.mem_cons_of_mem c hc2)
      have hpd : pyIntDigits (c :: cs) =
          some (cs.foldl (fun a c => a * 10 + digitVal c) (digitVal c)) := by
        rw [pyIntDigits, if_pos hd]
        exact digitsAux_all_digits cs _ htl
      have hfold : digitsToNat (c :: cs) =
          cs.foldl (fun a c => a * 10 + digitVal c) (digitVal c) := by
        rw [digitsToNat, List.foldl_cons]
        norm_num
      have hpi : pyInt (c :: cs) = some (Int.ofNat (digitsToNat (c :: cs))) := by
        simp only [pyInt, hw, if_neg (digit_ne_plus hd), if_neg (digit_ne_minus hd), hpd]
        rw [hfold]
        rfl
      unfold extractNumber
      rw [hdrop, hpi]

/-- Witness for C2's amended theorem at a concrete input. -/
theorem extractNumber_amended_witness :
    extractNumber (("PID77").data) = .ok (Int.ofNat (digitsToNat ['7', '7'])) :=
  (extractNumber_amended (("PID77").data)).2 ['7', '7'] (by decide) (by decide) (by decide)

/-! ### Lemmas about grouping -/

theorem hasKey_iff {k : PyStr} {r : Record} : hasKey k r = true ↔ recordKey r = .ok k := by
  rw [hasKey]
  rcases h : recordKey r with e | k2
  · simp
  · simp [decide_eq_true_eq, eq_comm]

theorem recordKey_of_okB {r : Record} (h : isOkB (recordKey r) = true) :
    ∃ name k, pyGet r 1 = .ok name ∧ createKey name = .ok k ∧ recordKey r = .ok k := by
  rcases hg : pyGet r 1 with e | name
  · rw [recordKey, hg] at h
    exact absurd h (by simp [isOkB])
  · have hr : recordKey r = createKey name := by rw [recordKey, hg]
    rcases hk : createKey name with e | k
    · rw [hr, hk] at h
      exact absurd h (by simp [isOkB])
    · exact ⟨name, k, rfl, hk, by rw [hr, hk]⟩

theorem tableKeys_dictAppend (d : GroupTable) (k : PyStr) (r : Record) :
    tableKeys (dictAppend d k r) =
      if k ∈ tableKeys d then tableKeys d else tableKeys d ++ [k] := by
  induction d with
  | nil => simp [dictAppend, tableKeys]
  | cons kv rest ih =>
    rcases kv with ⟨k2, v⟩
    rw [dictAppend]
    by_cases hk : k2 = k
    · subst hk
      simp [tableKeys]
    · have hne : ¬(k = k2) := fun he => hk he.symm
      rw [if_neg hk]
      by_cases hm : k ∈ tableKeys rest
      · have hmm : k ∈ tableKeys ((k2, v) :: rest) := by
          simp only [tableKeys, List.map_cons, List.mem_cons]
          exact Or.inr hm
        rw [if_pos hmm]
        rw [tableKeys] at hm
        simp only [tableKeys, List.map_cons] at ih ⊢
        rw [ih, if_pos hm]
      · have hmm : k ∉ tableKeys ((k2, v) :: rest) := by
          simp only [tableKeys, List.map_cons, List.mem_cons]
          rintro (h1 | h1)
          · exact hne h1
          · exact hm h1
        rw [if_neg hmm]
        rw [tableKeys] at hm
        simp only [tableKeys, List.map_cons] at ih ⊢
        rw [ih, if_neg hm]
        rfl

theorem groupOf_dictAppend (d : GroupTable) (k : PyStr) (r : Record) (q : PyStr) :
    groupOf (dictAppend d k r) q =
      if q = k then groupOf d k ++ [r] else groupOf d q := by
  induction d with
  | nil =>
    rw [dictAppend]
    by_cases hq : q = k
    · subst hq
      simp [groupOf]
    · have : ¬(k = q) := fun he => hq he.symm
      simp [groupOf, this, hq]
  | cons kv rest ih =>
    rcases kv with ⟨k2, v⟩
    rw [dictAppend]
    by_cases h2 : k2 = k
    · subst h2
      by_cases hq : q = k2
      · subst hq
        simp [groupOf]
      · have : ¬(k2 = q) := fun he => hq he.symm
        simp [groupOf, this, hq]
    · by_cases hq : q = k
      · subst hq
        have : ¬(k2 = q) := h2
        simp [groupOf, this, ih]
      · by_cases h2q : k2 = q
        · subst h2q
          simp [groupOf, h2, hq]
        · simp [groupOf, h2, h2q, hq, ih]

theorem mem_eq_groupOf {d : GroupTable} {k : PyStr} {v : List Record}
    (hnd : (tableKeys d).Nodup) (hm : (k, v) ∈ d) : groupOf d k = v := by
  induction d with
  | nil => simp at hm
  | cons kv rest ih =>
    rcases kv with ⟨k2, v2⟩
    rcases List.mem_cons.mp hm with he | hr
    · rw [Prod.mk.injEq] at he
      rw [groupOf, if_pos he.1.symm, he.2]
    · have hk2 : k2 ≠ k := by
        intro he
        subst he
        have : k2 ∈ tableKeys rest := by
          have := List.mem_map_of_mem Prod.fst hr
          simpa [tableKeys] using this
        rw [tableKeys, List.map_cons] at hnd
        exact (List.nodup_cons.mp hnd).1 this
      rw [groupOf, if_neg hk2]
      exact ih ((List.nodup_cons.mp (by simpa [tableKeys] using hnd)).2) hr

theorem dictAppend_flatten (d : GroupTable) (k : PyStr) (r : Record) :
    ((dictAppend d k r).map Prod.snd).flatten ~ (d.map Prod.snd).flatten ++ [r] := by
  induction d with
  | nil => simp [dictAppend]
  | cons kv rest ih =>
    rcases kv with ⟨k2, v⟩
    rw [dictAppend]
    by_cases hk : k2 = k
    · simp only [if_pos hk, List.map_cons, List.flatten_cons]
      rw [List.append_assoc, List.append_assoc]
      exact List.Perm.append_left v List.perm_append_comm
    · simp only [if_neg hk, List.map_cons, List.flatten_cons, List.append_assoc]
      exact ih.append_left v

theorem keysOf_cons {r : Record} {k : PyStr} (h : recordKey r = .ok k)
    (rest : List Record) : keysOf (r :: rest) = k :: keysOf rest := by
  simp [keysOf, h, Except.toOption]

theorem newKeys_eq_filter : ∀ (l seen : List PyStr),
    newKeys seen l = (dedupFirst l).filter (fun x => !(decide (x ∈ seen)))
  | [], _ => rfl
  | k :: ks, seen => by
    rw [newKeys, dedupFirst, List.filter_cons]
    by_cases hm : k ∈ seen
    · rw [if_pos hm]
      have hd : (!(decide (k ∈ seen))) = false := by simp [hm]
      rw [hd]
      simp only [Bool.false_eq_true, if_false, List.filter_filter]
      rw [newKeys_eq_filter ks seen]
      apply List.filter_congr
      intro x _
      by_cases hx : x ∈ seen
      · simp [hx]
      · have hxk : ¬(x = k) := fun he => hx (he ▸ hm)
        simp [hx, hxk]
    · rw [if_neg hm]
      have hd : (!(decide (k ∈ seen))) = true := by simp [hm]
      rw [hd]
      simp only [if_true, List.filter_filter]
      rw [newKeys_eq_filter ks (seen ++ [k])]
      congr 1
      apply List.filter_congr
      intro x _
      by_cases hxk : x = k
      · simp [hxk]
      · by_cases hx : x ∈ seen <;> simp [hx, hxk]

theorem newKeys_nil (l : List PyStr) : newKeys [] l = dedupFirst l := by
  rw [newKeys_eq_filter]
  simp

theorem dedupFirst_nodup : ∀ l : List PyStr, (dedupFirst l).Nodup
  | [] => List.nodup_nil
  | k :: ks => by
    rw [dedupFirst, List.nodup_cons]
    constructor
    · intro hm
      rcases List.mem_filter.mp hm with ⟨_, hne⟩
      simp at hne
    · exact (dedupFirst_nodup ks).filter _

theorem createDictionaryFrom_invariant : ∀ (data : List Record),
    (∀ r ∈ data, isOkB (recordKey r) = true) → ∀ d : GroupTable,
    ∃ d2, createDictionaryFrom d data = .ok d2 ∧
      tableKeys d2 = tableKeys d ++ newKeys (tableKeys d) (keysOf data) ∧
      (∀ q, groupOf d2 q = groupOf d q ++ data.filter (hasKey q)) ∧
      ((d2.map Prod.snd).flatten ~ (d.map Prod.snd).flatten ++ data)
  | [], _, d => ⟨d, rfl, by simp [keysOf, newKeys], by simp, by simp⟩
  | item :: rest, h, d => by
    rcases recordKey_of_okB (h item (List.mem_cons_self ..)) with ⟨name, k, hg, hk, hrk⟩
    rcases createDictionaryFrom_invariant rest
        (fun r hr => h r (List.mem_cons_of_mem item hr)) (dictAppend d k item) with
      ⟨d2, heq, hkeys, hgrp, hperm⟩
    refine ⟨d2, ?_, ?_, ?_, ?_⟩
    · simp only [createDictionaryFrom, hg, hk]
      exact heq
    · rw [hkeys, tableKeys_dictAppend, keysOf_cons hrk, newKeys]
      by_cases hm : k ∈ tableKeys d
      · rw [if_pos hm, if_pos hm]
      · rw [if_neg hm, if_neg hm, List.append_assoc, List.singleton_append]
    · intro q
      rw [hgrp q, groupOf_dictAppend, List.filter_cons]
      have hik : hasKey q item = decide (q = k) := by
        rw [hasKey, hrk]
        simp [eq_comm]
      by_cases hq : q = k
      · rw [if_pos hq, hik, if_pos (by simp [hq]), hq, List.append_assoc,
          List.singleton_append]
      · rw [if_neg hq, hik, if_neg (by simp [hq])]
    · refine hperm.trans ?_
      refine ((dictAppend_flatten d k item).append_right rest).trans ?_
      rw [List.append_assoc, List.singleton_append]

theorem createDictionary_spec (data : List Record)
    (h : ∀ r ∈ data, isOkB (recordKey r) = true) :
    ∃ d, createDictionary data = .ok d ∧
      tableKeys d = dedupFirst (keysOf data) ∧
      (tableKeys d).Nodup ∧
      (∀ kv ∈ d, kv.2 = data.filter (hasKey kv.1)) ∧
      ((d.map Prod.snd).flatten ~ data) := by
  rcases createDictionaryFrom_invariant data h [] with ⟨d, heq, hkeys, hgrp, hperm⟩
  have hkeys2 : tableKeys d = dedupFirst (keysOf data) := by
    rw [hkeys]
    simp [tableKeys, newKeys_nil]
  refine ⟨d, heq, hkeys2, hkeys2 ▸ dedupFirst_nodup _, ?_, by simpa using hperm⟩
  intro kv hm
  rcases kv with ⟨k, v⟩
  have := mem_eq_groupOf (hkeys2 ▸ dedupFirst_nodup _) hm
  rw [← this, hgrp k]
  simp [groupOf]

/-- C4: when every record's name normalizes successfully, `createDictionary`
succeeds and partitions the input: the keys of the resulting table are
pairwise distinct, every record stored under a key has exactly that key as
its normalized name key, and the concatenation of all groups is a
permutation of the input, so no record is dropped or duplicated and each
appears in exactly one group — the one of its normalized key. -/
theorem createDictionary_partition (data : List Record)
    (h : ∀ r ∈ data, isOkB (recordKey r) = true) :
    ∃ d, createDictionary data = .ok d ∧
      (tableKeys d).Nodup ∧
      (∀ kv ∈ d, ∀ r ∈ kv.2, recordKey r = .ok kv.1) ∧
      ((d.map Prod.snd).flatten ~ data) := by
  rcases createDictionary_spec data h with ⟨d, heq, _, hnd, hgrp, hperm⟩
  refine ⟨d, heq, hnd, ?_, hperm⟩
  intro kv hm r hr
  rw [hgrp kv hm] at hr
  exact hasKey_iff.mp (List.mem_filter.mp hr).2

/-- Witness for C4 at the worked example input. -/
theorem createDictionary_partition_witness :
    ∃ d, createDictionary exData = .ok d ∧
      (tableKeys d).Nodup ∧
      (∀ kv ∈ d, ∀ r ∈ kv.2, recordKey r = .ok kv.1) ∧
      ((d.map Prod.snd).flatten ~ exData) :=
  createDictionary_partition exData (by decide)

/-- C5: when every record's name normalizes successfully, the keys of the
table built by `createDictionary` appear in the order their key was first
encountered in the input, and each key's group is exactly the sublist of
input records bearing that key, in input order (stable grouping). -/
theorem createDictionary_ordering (data : List Record)
    (h : ∀ r ∈ data, isOkB (recordKey r) = true) :
    ∃ d, createDictionary data = .ok d ∧
      tableKeys d = dedupFirst (keysOf data) ∧
      (∀ kv ∈ d, kv.2 = data.filter (hasKey kv.1)) := by
  rcases createDictionary_spec data h with ⟨d, heq, hkeys, _, hgrp, _⟩
  exact ⟨d, heq, hkeys, hgrp⟩

/-- Witness for C5 at the worked example input. -/
theorem createDictionary_ordering_witness :
    ∃ d, createDictionary exData = .ok d ∧
      tableKeys d = dedupFirst (keysOf exData) ∧
      (∀ kv ∈ d, kv.2 = exData.filter (hasKey kv.1)) :=
  createDictionary_ordering exData (by decide)

/-! ### Lemmas about the per-group sort -/

theorem okB_exists {x : Except PyError α} (h : isOkB x = true) : ∃ a, x = .ok a := by
  rcases x with e | a
  · exact absurd h (by simp [isOkB])
  · exact ⟨a, rfl⟩

theorem decorateRecord_ok_eq {r : Record} {p : Int × Record}
    (h : decorateRecord r = .ok p) : p = (pidNum r, r) := by
  rcases hg : pyGet r 0 with e | pid
  · rw [decorateRecord, hg] at h
    exact absurd h (by simp)
  · rcases he : extractNumber pid with e | n
    · rw [decorateRecord] at h
      simp [hg, he] at h
    · have hd : decorateRecord r = .ok (n, r) := by
        rw [decorateRecord]
        simp only [hg, he]
      have hp : pidNum r = n := by rw [pidNum, hd]
      rw [hd] at h
      rw [hp]
      exact (Except.ok.injEq .. ▸ h).symm

theorem mapMDecorate_ok : ∀ (v : List Record),
    (∀ r ∈ v, isOkB (decorateRecord r) = true) →
    mapMDecorate v = .ok (v.map (fun r => (pidNum r, r)))
  | [], _ => rfl
  | r :: rs, h => by
    rcases okB_exists (h r (List.mem_cons_self ..)) with ⟨p, hp⟩
    have hpe : p = (pidNum r, r) := decorateRecord_ok_eq hp
    have ih := mapMDecorate_ok rs (fun r2 hr2 => h r2 (List.mem_cons_of_mem r hr2))
    simp only [mapMDecorate, hp, ih, List.map_cons, hpe]

theorem filter_orderedInsert (P : Int × Record → Bool)
    (h : ∀ x y, P x = true → P y = true → pidOrder x y) (a : Int × Record) :
    ∀ l : List (Int × Record),
    (List.orderedInsert pidOrder a l).filter P =
      if P a then a :: l.filter P else l.filter P
  | [] => by
    rw [List.orderedInsert, List.filter_cons]
  | b :: bs => by
    rw [List.orderedInsert]
    by_cases hr : pidOrder a b
    · rw [if_pos hr, List.filter_cons]
    · rw [if_neg hr, List.filter_cons]
      by_cases hpb : P b
      · by_cases hpa : P a
        · exact absurd (h a b hpa hpb) hr
        · simp [hpa, hpb, filter_orderedInsert P h a bs, List.filter_cons]
      · by_cases hpa : P a <;>
          simp [hpa, hpb, filter_orderedInsert P h a bs, List.filter_cons]

theorem filter_insertionSort (P : Int × Record → Bool)
    (h : ∀ x y, P x = true → P y = true → pidOrder x y) :
    ∀ l : List (Int × Record),
    (List.insertionSort pidOrder l).filter P = l.filter P
  | [] => rfl
  | b :: bs => by
    rw [List.insertionSort, filter_orderedInsert P h, List.filter_cons,
      filter_insertionSort P h bs]

theorem sortGroup_spec (v : List Record)
    (h : ∀ r ∈ v, isOkB (decorateRecord r) = true) :
    ∃ w, sortGroup v = .ok w ∧ List.Perm w v ∧
      w.Pairwise (fun a b => pidNum b ≤ pidNum a) ∧
      (∀ n : Int, w.filter (pidIs n) = v.filter (pidIs n)) := by
  have hm := mapMDecorate_ok v h
  set keyed := v.map (fun r => (pidNum r, r)) with hkeyed
  have hmem : ∀ p ∈ keyed, p.1 = pidNum p.2 := by
    intro p hp
    rcases List.mem_map.mp hp with ⟨r, _, hpr⟩
    rw [← hpr]
  have hsortmem : ∀ p ∈ List.insertionSort pidOrder keyed, p.1 = pidNum p.2 :=
    fun p hp => hmem p ((List.perm_insertionSort pidOrder keyed).subset hp)
  have hsnd : keyed.map Prod.snd = v := by
    rw [hkeyed, List.map_map]
    exact List.map_id v
  refine ⟨(List.insertionSort pidOrder keyed).map Prod.snd, ?_, ?_, ?_, ?_⟩
  · rw [sortGroup, hm]
  · have h2 := (List.perm_insertionSort pidOrder keyed).map Prod.snd
    rw [hsnd] at h2
    exact h2
  · rw [List.pairwise_map]
    have hs : (List.insertionSort pidOrder keyed).Pairwise pidOrder :=
      List.sorted_insertionSort pidOrder keyed
    refine hs.imp_of_mem ?_
    intro a b ha hb hab
    rw [← hsortmem a ha, ← hsortmem b hb]
    exact hab
  · intro n
    rw [List.filter_map]
    have hcongr1 : (List.insertionSort pidOrder keyed).filter (pidIs n ∘ Prod.snd) =
        (List.insertionSort pidOrder keyed).filter (fun p => decide (p.1 = n)) := by
      apply List.filter_congr
      intro p hp
      simp only [Function.comp_apply, pidIs, hsortmem p hp]
    have hclass : ∀ x y : Int × Record,
        decide (x.1 = n) = true → decide (y.1 = n) = true → pidOrder x y := by
      intro x y hx hy
      rw [decide_eq_true_eq] at hx hy
      rw [pidOrder, hx, hy]
    have hcongr2 : keyed.filter (fun p => decide (p.1 = n)) =
        keyed.filter (pidIs n ∘ Prod.snd) := by
      apply List.filter_congr
      intro p hp
      simp only [Function.comp_apply, pidIs, hmem p hp]
    rw [hcongr1, filter_insertionSort _ hclass, hcongr2, ← List.filter_map, hsnd]

/-- C6: on a table whose records all have parseable patient-ID suffixes,
`sortDictbyPidDesc` succeeds, keeps the key sequence unchanged (same key
set, same order), and replaces each group by a permutation of itself that
is sorted by descending numeric patient-ID suffix; records with equal
numeric IDs keep their original relative order (stability, expressed as:
for every ID value, filtering the group to that value yields the same
sequence before and after sorting). -/
theorem sortDictbyPidDesc_contract : ∀ d : GroupTable,
    (∀ kv ∈ d, ∀ r ∈ kv.2, isOkB (decorateRecord r) = true) →
    ∃ d2, sortDictbyPidDesc d = .ok d2 ∧
      tableKeys d2 = tableKeys d ∧
      List.Forall₂ (fun kv kv2 => kv2.1 = kv.1 ∧
        List.Perm kv2.2 kv.2 ∧
        kv2.2.Pairwise (fun a b => pidNum b ≤ pidNum a) ∧
        (∀ n : Int, kv2.2.filter (pidIs n) = kv.2.filter (pidIs n))) d d2
  | [], _ => ⟨[], rfl, rfl, List.Forall₂.nil⟩
  | (k, v) :: rest, h => by
    rcases sortGroup_spec v (h (k, v) (List.mem_cons_self ..)) with
      ⟨w, hw, hperm, hpair, hstable⟩
    rcases sortDictbyPidDesc_contract rest
        (fun kv hkv => h kv (List.mem_cons_of_mem (k, v) hkv)) with
      ⟨rest2, heq, hkeys, hall⟩
    refine ⟨(k, w) :: rest2, ?_, ?_, ?_⟩
    · simp only [sortDictbyPidDesc, hw, heq]
    · simp only [tableKeys, List.map_cons] at hkeys ⊢
      rw [hkeys]
    · exact List.Forall₂.cons ⟨rfl, hperm, hpair, hstable⟩ hall

/-- Witness for C6 at the grouped worked example. -/
theorem sortDictbyPidDesc_contract_witness :
    ∃ d2, sortDictbyPidDesc
        [(("pond^amy").data, [exRow1, exRow3, exRow4]),
         (("williams^rory").data, [exRow2])] = .ok d2 ∧
      tableKeys d2 = tableKeys
        [(("pond^amy").data, [exRow1, exRow3, exRow4]),
         (("williams^rory").data, [exRow2])] ∧
      List.Forall₂ (fun kv kv2 => kv2.1 = kv.1 ∧
        List.Perm kv2.2 kv.2 ∧
        kv2.2.Pairwise (fun a b => pidNum b ≤ pidNum a) ∧
        (∀ n : Int, kv2.2.filter (pidIs n) = kv.2.filter (pidIs n)))
        [(("pond^amy").data, [exRow1, exRow3, exRow4]),
         (("williams^rory").data, [exRow2])] d2 :=
  sortDictbyPidDesc_contract
    [(("pond^amy").data, [exRow1, exRow3, exRow4]),
     (("williams^rory").data, [exRow2])] (by decide)

/-! ### The main pipeline -/

theorem createDictionaryFrom_err : ∀ (data : List Record) (r : Record), r ∈ data →
    isOkB (recordKey r) = false → ∀ d, ∃ e, createDictionaryFrom d data = .error e
  | item :: rest, r, hr, hb, d => by
    rcases List.mem_cons.mp hr with he | hm
    · subst he
      rcases hg : pyGet r 1 with e | name
      · exact ⟨e, by simp only [createDictionaryFrom, hg]⟩
      · have hrk : recordKey r = createKey name := by rw [recordKey, hg]
        rcases hk : createKey name with e | k
        · exact ⟨e, by simp only [createDictionaryFrom, hg, hk]⟩
        · rw [hrk, hk] at hb
          exact absurd hb (by simp [isOkB])
    · rcases hg : pyGet item 1 with e | name
      · exact ⟨e, by simp only [createDictionaryFrom, hg]⟩
      · rcases hk : createKey name with e | k
        · exact ⟨e, by simp only [createDictionaryFrom, hg, hk]⟩
        · rcases createDictionaryFrom_err rest r hm hb (dictAppend d k item) with ⟨e, he⟩
          refine ⟨e, ?_⟩
          simp only [createDictionaryFrom, hg, hk]
          exact he

/-- C3 counterexample: on the single-record input whose name is well formed
but whose ID suffix is not numeric, the run prints the whole first report
and the marker line before aborting in the sorted-report pass, so a failing
run does produce partial output — the claim that a malformed ID leaves no
partial report output is false. -/
theorem runMain_partial_output :
    runMain [badIdRow] =
      ([("0:").data, ("PIDX,POND^AMY,F,19890224").data,
        ("Different version, sorted by PID number").data], some PyError.valueError) ∧
    ([("0:").data, ("PIDX,POND^AMY,F,19890224").data,
      ("Different version, sorted by PID number").data] : List PyStr) ≠ [] :=
  ⟨rfl, by simp⟩

/-- C3 (amended): when any record's name field is malformed (or a record
has no name field), the run aborts before printing anything; when the
grouping succeeds but an ID is malformed, the run aborts after printing the
complete first report and the marker line, and only the second report is
missing; when both passes succeed the run prints both full reports around
the marker line.  So output is all-or-nothing only for the first report:
an ID error in the sorted-report pass leaves partial output. -/
theorem runMain_amended (data : List Record) :
    (∀ r, r ∈ data → isOkB (recordKey r) = false → ∃ e, runMain data = ([], some e)) ∧
    (∀ e, createDictionary data = .error e → runMain data = ([], some e)) ∧
    (∀ d e, createDictionary data = .ok d → sortDictbyPidDesc d = .error e →
      runMain data = (printOutput d ++ [markerLine], some e)) ∧
    (∀ d d2, createDictionary data = .ok d → sortDictbyPidDesc d = .ok d2 →
      runMain data = (printOutput d ++ [markerLine] ++ printOutput d2, none)) := by
  refine ⟨?_, ?_, ?_, ?_⟩
  · intro r hr hb
    rcases createDictionaryFrom_err data r hr hb [] with ⟨e, he⟩
    have hcd : createDictionary data = .error e := he
    exact ⟨e, by simp only [runMain, hcd]⟩
  · intro e hcd
    simp only [runMain, hcd]
  · intro d e hcd hs
    simp only [runMain, hcd, hs]
  · intro d d2 hcd hs
    simp only [runMain, hcd, hs]

/-- Witness for C3's amended theorem: at the bad-ID input the first report
and the marker line are printed, then the run aborts. -/
theorem runMain_amended_witness :
    runMain [badIdRow] =
      (printOutput [(("pond^amy").data, [badIdRow])] ++ [markerLine],
        some PyError.valueError) :=
  (runMain_amended [badIdRow]).2.2.1 [(("pond^amy").data, [badIdRow])]
    PyError.valueError rfl rfl

/-- C8: on the worked 4-record example, the run prints exactly the two
reports separated by the literal marker line: the first report lists the
`pond^amy` group (PID1, PID3, PID4, in input order) under index 0 and the
`williams^rory` group under index 1; the second report lists the same
groups with the first group re-ordered to PID4, PID3, PID1 (descending
numeric ID); each record is rendered as its fields joined by commas and
the group indices start at 0. -/
theorem runMain_example :
    runMain exData =
      ([("0:").data,
        ("PID1,POND^AMY,F,19890224").data,
        ("PID3,POND^AMY,F,19890224").data,
        ("PID4,POND^AMY,F,20010911").data,
        ("1:").data,
        ("PID2,WILLIAMS^RORY,M,19881102").data,
        ("Different version, sorted by PID number").data,
        ("0:").data,
        ("PID4,POND^AMY,F,20010911").data,
        ("PID3,POND^AMY,F,19890224").data,
        ("PID1,POND^AMY,F,19890224").data,
        ("1:").data,
        ("PID2,WILLIAMS^RORY,M,19881102").data], none) := rfl

/-- C9: the program never checks that a row has exactly 4 fields: a row
with at least 2 fields whose name field normalizes is grouped under its
second field's key whatever its field count, and `printOutput` renders all
of its fields joined by commas; a row with fewer than 2 fields makes
`createDictionary` fail with an indexing error (the embedded error type
has no malformed-row variant at all). -/
theorem no_field_count_validation :
    (∀ r : Record, ∀ name k, pyGet r 1 = .ok name → createKey name = .ok k →
      createDictionary [r] = .ok [(k, [r])] ∧
      printOutput [(k, [r])] = [['0', ':'], pyJoinComma r]) ∧
    (∀ r : Record, r.length < 2 → createDictionary [r] = .error .indexError) := by
  constructor
  · intro r name k hg hk
    constructor
    · simp only [createDictionary, createDictionaryFrom, hg, hk, dictAppend]
    · simp [printOutput, counterLine]
      decide
  · intro r hlen
    have hg : pyGet r 1 = .error .indexError := by
      rw [pyGet]
      have hn : r.get? 1 = none := by
        rw [List.get?_eq_none]
        omega
      rw [hn]
    simp only [createDictionary, createDictionaryFrom, hg]

/-- Witness for C9 at a 6-field row and a 1-field row. -/
theorem no_field_count_validation_witness :
    (createDictionary [wideRow] = .ok [(("a^b").data, [wideRow])] ∧
      printOutput [(("a^b").data, [wideRow])] = [['0', ':'], pyJoinComma wideRow]) ∧
    createDictionary [shortRow] = .error .indexError :=
  ⟨(no_field_count_validation).1 wideRow (("A^B").data) (("a^b").data) rfl rfl,
   (no_field_count_validation).2 shortRow (by decide)⟩

/-- C10: on the empty input list `createDictionary` returns the empty
table, `printOutput` prints nothing, and the whole run succeeds printing
only the marker line between two empty reports. -/
theorem runMain_empty :
    createDictionary ([] : List Record) = .ok [] ∧
    printOutput [] = [] ∧
    runMain [] = ([("Different version, sorted by PID number").data], none) :=
  ⟨rfl, rfl, rfl⟩

end Vital
